import Mathlib

/-!
Verification of the date-parsing and conversion layer of the hebcal launcher
plugin.  The Python source is embedded shallowly: strings are `List Char`,
the regular expressions of `parseGregorianDate` are compiled by hand into
deterministic matchers (the patterns involved never need real backtracking,
as argued at each definition), and the two HTTP conversion wrappers are
modelled with an explicit service-behaviour parameter and an `Except` monad
for Python exceptions.
-/

namespace Hebcal

/-- ASCII decimal digit test (Python regex `\d` and `str.isdigit` restricted
to ASCII input). -/
def isDig (c : Char) : Bool := decide (48 ≤ c.toNat ∧ c.toNat ≤ 57)

/-- Numeric value of a digit character. -/
def digitVal (c : Char) : Nat := c.toNat - 48

/-- Value of a run of digit characters, as Python `int` on a digit string. -/
def natOfDigits (ds : List Char) : Nat := ds.foldl (fun a c => a * 10 + digitVal c) 0

/-- ASCII lowercasing of one character (Python `str.lower`, which agrees with
this on ASCII; all month keys involved are ASCII). -/
def lowerC (c : Char) : Char :=
  if 65 ≤ c.toNat ∧ c.toNat ≤ 90 then Char.ofNat (c.toNat + 32) else c

/-- Lowercase a whole string. -/
def lowerL (cs : List Char) : List Char := cs.map lowerC

/-- The whitespace characters Python `str.split()` splits on (ASCII part). -/
def isPySpace (c : Char) : Bool :=
  decide (c = ' ' ∨ c = '\t' ∨ c = '\n' ∨ c = '\r' ∨ c.toNat = 11 ∨ c.toNat = 12)

/-- Worker for `splitWs`: `cur` holds the current (reversed) in-progress token. -/
def splitWsAux (cur : List Char) : List Char → List (List Char)
  | [] => if cur.isEmpty then [] else [cur.reverse]
  | c :: cs =>
    if isPySpace c then
      (if cur.isEmpty then splitWsAux [] cs else cur.reverse :: splitWsAux [] cs)
    else splitWsAux (c :: cur) cs

/-- Python `str.split()` with no argument: split on whitespace runs, dropping
empty tokens. -/
def splitWs (cs : List Char) : List (List Char) := splitWsAux [] cs

/-- Python `re.sub(r'[,.]', '', s)`: drop every comma and period. -/
def removePunct (cs : List Char) : List Char := cs.filter (fun c => !(c == ',' || c == '.'))

/-- The `HEBREW_MONTHS` dict of the plugin, in insertion order:
lowercase key to canonical display name. -/
def HEBREW_MONTHS : List (String × String) :=
  [("tishrei", "Tishrei"), ("cheshvan", "Cheshvan"), ("kislev", "Kislev"),
   ("tevet", "Tevet"), ("shvat", "Shvat"), ("adar", "Adar"), ("adar1", "Adar1"),
   ("adar2", "Adar2"), ("nisan", "Nisan"), ("iyyar", "Iyyar"), ("sivan", "Sivan"),
   ("tamuz", "Tamuz"), ("av", "Av"), ("elul", "Elul")]

/-- The 14 canonical display names (the values of `HEBREW_MONTHS`). -/
def hebMonthNames : List String := HEBREW_MONTHS.map Prod.snd

/-- Python `part in HEBREW_MONTHS` followed by `HEBREW_MONTHS[part]`. -/
def lookupHebMonth (t : List Char) : Option String :=
  (HEBREW_MONTHS.find? (fun p => p.1.data == t)).map Prod.snd

/-- Python `str.isdigit` on a token (nonempty, all digits; tokens produced by
`splitWs` are ASCII-checked only, like the plugin's inputs). -/
def isdigitL (t : List Char) : Bool := !t.isEmpty && t.all isDig

/-- A Hebrew date record as built by `parseHebrewDate`. -/
structure HebrewDate where
  year : Nat
  month : String
  day : Nat
deriving DecidableEq

/-- The token scan of `parseHebrewDate`: each token may overwrite the year
slot (digits, value `> 5000`), the day slot (digits, value in `[1, 30]`),
or the month slot (a `HEBREW_MONTHS` key); mirrors the Python
`if part.isdigit(): ... elif part in HEBREW_MONTHS: ...` loop. -/
def scanTokens : List (List Char) → Option Nat → Option String → Option Nat →
    Option Nat × Option String × Option Nat
  | [], y, m, d => (y, m, d)
  | t :: ts, y, m, d =>
    if isdigitL t then
      (if natOfDigits t > 5000 then scanTokens ts (some (natOfDigits t)) m d
       else if 1 ≤ natOfDigits t ∧ natOfDigits t ≤ 30 then scanTokens ts y m (some (natOfDigits t))
       else scanTokens ts y m d)
    else
      match lookupHebMonth t with
      | some mm => scanTokens ts y (some mm) d
      | none => scanTokens ts y m d

/-- The token list `parseHebrewDate` works on: strip commas and periods,
lowercase, split on whitespace. -/
def hebTokens (s : String) : List (List Char) := splitWs (lowerL (removePunct s.data))

/-- `parseHebrewDate` of the plugin.  The Python final test
`if year and month and day` coincides with all three slots being set, since
a set year is `> 5000`, a set day is `≥ 1` and a set month is a nonempty
string, so none of them can be falsy. -/
def parseHebrewDate (s : String) : Option HebrewDate :=
  if (hebTokens s).length < 3 then none
  else
    match scanTokens (hebTokens s) none none none with
    | (some y, some m, some d) => some ⟨y, m, d⟩
    | _ => none

/-- A Gregorian date record as built by `parseGregorianDate`. -/
structure GregorianDate where
  year : Nat
  month : Nat
  day : Nat
deriving DecidableEq

/-- Match `(\d{4})` immediately followed by `sep`, returning the value and the
remaining characters.  `\d{4}` is an exact repetition, so no backtracking
arises. -/
def grab4Then (sep : Char) : List Char → Option (Nat × List Char)
  | c1 :: c2 :: c3 :: c4 :: c5 :: rest =>
    if isDig c1 && isDig c2 && isDig c3 && isDig c4 && c5 == sep then
      some (natOfDigits [c1, c2, c3, c4], rest)
    else none
  | _ => none

/-- Match `(\d{1,2})` immediately followed by `sep`.  The regex is greedy: it
tries two digits first; since `sep` (always `-` or `/` here) is not a digit,
the one-digit alternative can succeed only when the second character is `sep`
itself, so the match is deterministic and no global backtracking is needed. -/
def grabThen (sep : Char) : List Char → Option (Nat × List Char)
  | c1 :: c2 :: c3 :: rest =>
    if isDig c1 then
      (if isDig c2 then
        (if c3 == sep then some (natOfDigits [c1, c2], rest) else none)
       else if c2 == sep then some (natOfDigits [c1], c3 :: rest)
       else none)
    else none
  | [c1, c2] => if isDig c1 && c2 == sep then some (natOfDigits [c1], []) else none
  | _ => none

/-- Match a final `(\d{1,2})` with nothing required after it (greedy: two
digits if available, else one). -/
def grabLast : List Char → Option Nat
  | c1 :: c2 :: _ =>
    if isDig c1 then
      (if isDig c2 then some (natOfDigits [c1, c2]) else some (natOfDigits [c1]))
    else none
  | [c1] => if isDig c1 then some (natOfDigits [c1]) else none
  | [] => none

/-- Match `(\d{4})` with nothing required after it. -/
def grab4 : List Char → Option Nat
  | c1 :: c2 :: c3 :: c4 :: _ =>
    if isDig c1 && isDig c2 && isDig c3 && isDig c4 then
      some (natOfDigits [c1, c2, c3, c4])
    else none
  | _ => none

/-- Python `re.match(r'(\d{4})-(\d{1,2})-(\d{1,2})', s)`: anchored at the
start, trailing characters unconstrained. -/
def matchISO (cs : List Char) : Option (Nat × Nat × Nat) :=
  match grab4Then '-' cs with
  | none => none
  | some (y, r1) =>
    match grabThen '-' r1 with
    | none => none
    | some (m, r2) =>
      match grabLast r2 with
      | none => none
      | some d => some (y, m, d)

/-- Python `re.match(r'(\d{1,2})/(\d{1,2})/(\d{4})', s)`. -/
def matchSlash (cs : List Char) : Option (Nat × Nat × Nat) :=
  match grabThen '/' cs with
  | none => none
  | some (a, r1) =>
    match grabThen '/' r1 with
    | none => none
    | some (b, r2) =>
      match grab4 r2 with
      | none => none
      | some y => some (a, b, y)

/-- The `months` dict of the natural-language branch, in Python insertion
order (the duplicate `'may'` key keeps its first position and its value is
unchanged). -/
def monthsList : List (String × Nat) :=
  [("january", 1), ("february", 2), ("march", 3), ("april", 4),
   ("may", 5), ("june", 6), ("july", 7), ("august", 8),
   ("september", 9), ("october", 10), ("november", 11), ("december", 12),
   ("jan", 1), ("feb", 2), ("mar", 3), ("apr", 4), ("jun", 6),
   ("jul", 7), ("aug", 8), ("sep", 9), ("oct", 10), ("nov", 11), ("dec", 12)]

/-- Does `pat` occur at the head of the second list? -/
def startsWithL : List Char → List Char → Bool
  | [], _ => true
  | _ :: _, [] => false
  | p :: ps, c :: cs => p == c && startsWithL ps cs

/-- Python substring test `pat in s`. -/
def containsSub (pat : List Char) : List Char → Bool
  | [] => pat.isEmpty
  | c :: cs => startsWithL pat (c :: cs) || containsSub pat cs

/-- Worker for `numericRuns`: `cur` holds the current (reversed) digit run. -/
def numericRunsAux (cur : List Char) : List Char → List (List Char)
  | [] => if cur.isEmpty then [] else [cur.reverse]
  | c :: cs =>
    if isDig c then numericRunsAux (c :: cur) cs
    else if cur.isEmpty then numericRunsAux [] cs
    else cur.reverse :: numericRunsAux [] cs

/-- Python `re.findall(r'\d+', s)`: the maximal runs of digits, in order. -/
def numericRuns (cs : List Char) : List (List Char) := numericRunsAux [] cs

/-- The integers of all numeric runs of the string. -/
def numList (cs : List Char) : List Nat := (numericRuns cs).map natOfDigits

/-- Two-digit-year heuristic of the natural-language branch. -/
def fixYear (y : Nat) : Nat := if y < 100 then y + 2000 else y

/-- The natural-language loop of `parseGregorianDate`: walk the month-name
dict in order; on a substring hit with at least two numeric runs present,
build the record (first run is the day, last run is the year); otherwise keep
scanning the remaining names. -/
def tryMonths (cs : List Char) (nums : List Nat) : List (String × Nat) → Option GregorianDate
  | [] => none
  | (name, num) :: rest =>
    if containsSub name.data (lowerL cs) then
      (if 2 ≤ nums.length then
        some ⟨fixYear (nums.getLastD 0), num, nums.headD 0⟩
       else tryMonths cs nums rest)
    else tryMonths cs nums rest

/-- `parseGregorianDate` of the plugin, over a character list: ISO form
first, then the slash form with its first-number disambiguation, then the
natural-language month-name scan. -/
def parseGregorianDateL (cs : List Char) : Option GregorianDate :=
  match matchISO cs with
  | some (y, m, d) => some ⟨y, m, d⟩
  | none =>
    match matchSlash cs with
    | some (a, b, y) => if a > 12 then some ⟨y, b, a⟩ else some ⟨y, a, b⟩
    | none => tryMonths cs (numList cs) monthsList

/-- `parseGregorianDate` of the plugin. -/
def parseGregorianDate (s : String) : Option GregorianDate := parseGregorianDateL s.data

/-- A JSON scalar as the Hebcal API returns it in the fields the plugin
reads: `gy`/`gm`/`gd` are numbers, `hy`/`hd` numbers and `hm` a string, but
the plugin never checks types, so both shapes are kept. -/
inductive Json where
  | num (n : Int)
  | str (s : String)
deriving DecidableEq

/-- The Python exceptions the gateway code can raise inside its `try` block. -/
inductive PyErr where
  | urlError
  | jsonError
  | valueError
deriving DecidableEq

/-- Observable behaviour of one HTTP fetch of the conversion service:
`netError` is any exception out of `urllib.request.urlopen` or the body read
(DNS or connection failure, timeout, and `HTTPError` for a non-2xx status);
`badJson` is `json.loads` raising on a malformed body; `ok` is a parsed JSON
object, given as its field list. -/
inductive FetchOutcome where
  | netError
  | badJson
  | ok (data : List (String × Json))
deriving DecidableEq

/-- Python `data[k]` lookup, as an `Option` (`'k' in data` is `isSome`). -/
def lookupField (data : List (String × Json)) (k : String) : Option Json :=
  (data.find? (fun p => p.1 == k)).map Prod.snd

/-- Python `k in data`. -/
def hasField (data : List (String × Json)) (k : String) : Bool :=
  (lookupField data k).isSome

/-- Python `f"{v}"` on a JSON scalar. -/
def pyStr (v : Json) : String :=
  match v with
  | .num n => toString n
  | .str s => s

/-- Python `f"{n:02d}"` on an integer: zero-pad single nonnegative digits to
width two (a sign counts toward the width, as in Python). -/
def pad2Int (n : Int) : String :=
  if 0 ≤ n ∧ n < 10 then "0" ++ toString n else toString n

/-- Python `f"{v:02d}"`: raises `ValueError` unless the value is an integer. -/
def fmt02 (v : Json) : Except PyErr String :=
  match v with
  | .num n => .ok (pad2Int n)
  | .str _ => .error .valueError

/-- `urllib.parse.urlencode` on the parameter dict; every value the plugin
passes (digits, month names, flag literals) is in the unreserved set, where
percent-encoding is the identity. -/
def urlencodePairs (ps : List (String × String)) : String :=
  match ps with
  | [] => ""
  | p :: rest => rest.foldl (fun acc q => acc ++ "&" ++ q.1 ++ "=" ++ q.2) (p.1 ++ "=" ++ p.2)

/-- The request URL of `convertHebrewToGregorian`. -/
def buildH2GUrl (d : HebrewDate) : String :=
  "https://www.hebcal.com/converter?" ++ urlencodePairs
    [("cfg", "json"), ("hy", toString d.year), ("hm", d.month),
     ("hd", toString d.day), ("h2g", "1"), ("strict", "1")]

/-- The request URL of `convertGregorianToHebrew`. -/
def buildG2HUrl (d : GregorianDate) : String :=
  "https://www.hebcal.com/converter?" ++ urlencodePairs
    [("cfg", "json"), ("gy", toString d.year), ("gm", toString d.month),
     ("gd", toString d.day), ("g2h", "1"), ("strict", "1")]

/-- A converted date as the gateway returns it: the raw response fields plus
the preformatted display string. -/
structure ConvertedDate where
  year : Json
  month : Json
  day : Json
  formatted : String
deriving DecidableEq

/-- The `try` block body of `convertHebrewToGregorian`, given the fetch
outcome: exceptions are `Except.error`; if any of `gy`, `gm`, `gd` is
missing, the block falls through and the function returns `None`
(`Except.ok none`). -/
def convertH2GBody (out : FetchOutcome) : Except PyErr (Option ConvertedDate) :=
  match out with
  | .netError => .error .urlError
  | .badJson => .error .jsonError
  | .ok data =>
    match lookupField data "gy", lookupField data "gm", lookupField data "gd" with
    | some gy, some gm, some gd =>
      match fmt02 gm, fmt02 gd with
      | .ok pm, .ok pd => .ok (some ⟨gy, gm, gd, pyStr gy ++ "-" ++ pm ++ "-" ++ pd⟩)
      | .error e, _ => .error e
      | .ok _, .error e => .error e
    | _, _, _ => .ok none

/-- The `try` block body of `convertGregorianToHebrew`; the `D MonthName
YYYY` format string has no `:02d` conversions, so formatting cannot raise. -/
def convertG2HBody (out : FetchOutcome) : Except PyErr (Option ConvertedDate) :=
  match out with
  | .netError => .error .urlError
  | .badJson => .error .jsonError
  | .ok data =>
    match lookupField data "hy", lookupField data "hm", lookupField data "hd" with
    | some hy, some hm, some hd =>
      .ok (some ⟨hy, hm, hd, pyStr hd ++ " " ++ pyStr hm ++ " " ++ pyStr hy⟩)
    | _, _, _ => .ok none

/-- `convertHebrewToGregorian` of the plugin: build the request URL, observe
the service's behaviour on it, and catch every exception of the body as
`None` (`except Exception: pass` followed by `return None`). -/
def convertHebrewToGregorian (d : HebrewDate) (service : String → FetchOutcome) :
    Option ConvertedDate :=
  match convertH2GBody (service (buildH2GUrl d)) with
  | .error _ => none
  | .ok v => v

/-- `convertGregorianToHebrew` of the plugin, with the same exception
handling. -/
def convertGregorianToHebrew (d : GregorianDate) (service : String → FetchOutcome) :
    Option ConvertedDate :=
  match convertG2HBody (service (buildG2HUrl d)) with
  | .error _ => none
  | .ok v => v

/-- The failure behaviours of the claim for the Hebrew→Gregorian direction:
transport or parse failure, or a response lacking one of `gy`, `gm`, `gd`. -/
def isConvFailureG (out : FetchOutcome) : Bool :=
  match out with
  | .netError => true
  | .badJson => true
  | .ok data => !(hasField data "gy" && hasField data "gm" && hasField data "gd")

/-- The failure behaviours for the Gregorian→Hebrew direction. -/
def isConvFailureH (out : FetchOutcome) : Bool :=
  match out with
  | .netError => true
  | .badJson => true
  | .ok data => !(hasField data "hy" && hasField data "hm" && hasField data "hd")

/-- Last-write-wins slot update: a qualifying value overwrites the slot. -/
def updSlot {α : Type} (acc : Option α) (v? : Option α) : Option α :=
  match v? with
  | some v => some v
  | none => acc

/-- The slot value after scanning a token list left to right, starting from
`init`: the last token on which `f` fires wins. -/
def lastSome {α β : Type} (f : β → Option α) (ts : List β) (init : Option α) : Option α :=
  ts.foldl (fun acc t => updSlot acc (f t)) init

/-- Does a token qualify for the year slot, and with which value? -/
def tokYear (t : List Char) : Option Nat :=
  if isdigitL t then
    (if natOfDigits t > 5000 then some (natOfDigits t) else none)
  else none

/-- Does a token qualify for the day slot, and with which value?  The
`> 5000` guard mirrors the `elif`: a year-sized number never reaches the day
test. -/
def tokDay (t : List Char) : Option Nat :=
  if isdigitL t then
    (if natOfDigits t > 5000 then none
     else if 1 ≤ natOfDigits t ∧ natOfDigits t ≤ 30 then some (natOfDigits t)
     else none)
  else none

/-- Does a token qualify for the month slot, and with which display name?
A digit token never reaches the month test (`elif`). -/
def tokMonth (t : List Char) : Option String :=
  if isdigitL t then none else lookupHebMonth t

theorem lastSome_cons {α β : Type} (f : β → Option α) (t : β) (ts : List β)
    (init : Option α) :
    lastSome f (t :: ts) init = lastSome f ts (updSlot init (f t)) := rfl

theorem lastSome_append {α β : Type} (f : β → Option α) (l1 l2 : List β)
    (init : Option α) :
    lastSome f (l1 ++ l2) init = lastSome f l2 (lastSome f l1 init) := by
  simp [lastSome, List.foldl_append]

theorem lastSome_of_none {α β : Type} (f : β → Option α) :
    ∀ (l : List β) (init : Option α), (∀ u ∈ l, f u = none) →
      lastSome f l init = init := by
  intro l
  induction l with
  | nil => intro init h; rfl
  | cons t ts ih =>
    intro init h
    rw [lastSome_cons, h t (by simp)]
    simp only [updSlot]
    exact ih init (fun u hu => h u (by simp [hu]))

theorem lastSome_some_mem {α β : Type} (f : β → Option α) (l : List β)
    (init : Option α) (v : α) (h : lastSome f l init = some v) :
    (∃ t ∈ l, f t = some v) ∨ init = some v := by
  induction l generalizing init with
  | nil => right; exact h
  | cons t ts ih =>
    rw [lastSome_cons] at h
    rcases ih _ h with ⟨u, hu, hfu⟩ | hstep
    · exact Or.inl ⟨u, by simp [hu], hfu⟩
    · rcases hft : f t with _ | w
      · rw [hft] at hstep
        right; exact hstep
      · rw [hft] at hstep
        simp only [updSlot] at hstep
        exact Or.inl ⟨t, by simp, by rw [hft, hstep]⟩

theorem lastSome_last_qualifying {α β : Type} (f : β → Option α) (l1 : List β)
    (t : β) (l2 : List β) (v : α) (init : Option α)
    (hft : f t = some v) (h2 : ∀ u ∈ l2, f u = none) :
    lastSome f (l1 ++ t :: l2) init = some v := by
  rw [lastSome_append, lastSome_cons, hft]
  simp only [updSlot]
  exact lastSome_of_none _ _ _ h2

/-- One token-scan step agrees with the three slot-qualification functions. -/
theorem scanTokens_eq (ts : List (List Char)) :
    ∀ (y : Option Nat) (m : Option String) (d : Option Nat),
      scanTokens ts y m d =
        (lastSome tokYear ts y, lastSome tokMonth ts m, lastSome tokDay ts d) := by
  induction ts with
  | nil => intro y m d; rfl
  | cons t ts ih =>
    intro y m d
    rw [lastSome_cons, lastSome_cons, lastSome_cons]
    by_cases hdig : isdigitL t = true
    · by_cases hy : natOfDigits t > 5000
      · simp [scanTokens, tokYear, tokMonth, tokDay, hdig, hy, updSlot, ih]
      · by_cases hday : 1 ≤ natOfDigits t ∧ natOfDigits t ≤ 30
        · simp [scanTokens, tokYear, tokMonth, tokDay, hdig, hy, hday, updSlot, ih]
        · simp [scanTokens, tokYear, tokMonth, tokDay, hdig, hy, hday, updSlot, ih]
    · rcases hmm : lookupHebMonth t with _ | mm
      · simp [scanTokens, tokYear, tokMonth, tokDay, hdig, hmm, updSlot, ih]
      · simp [scanTokens, tokYear, tokMonth, tokDay, hdig, hmm, updSlot, ih]

/-- Inversion of a successful Hebrew parse. -/
theorem parseHebrew_some_elim (s : String) (r : HebrewDate)
    (h : parseHebrewDate s = some r) :
    3 ≤ (hebTokens s).length ∧
      scanTokens (hebTokens s) none none none = (some r.year, some r.month, some r.day) := by
  unfold parseHebrewDate at h
  split at h
  · exact absurd h (by simp)
  · constructor
    · omega
    · split at h
      · rename_i y m d heq
        obtain rfl : r = ⟨y, m, d⟩ := by
          injection h with h'
          exact h'.symm
        exact heq
      · exact absurd h (by simp)

/-- If any slot is still unset after the scan, the parser yields no record. -/
theorem parseHebrew_none_of_slot (s : String)
    (y : Option Nat) (m : Option String) (d : Option Nat)
    (hscan : scanTokens (hebTokens s) none none none = (y, m, d))
    (hmiss : y = none ∨ m = none ∨ d = none) :
    parseHebrewDate s = none := by
  unfold parseHebrewDate
  split
  · rfl
  · split
    · rename_i y' m' d' heq
      rw [heq] at hscan
      obtain ⟨hy, hm, hd⟩ : some y' = y ∧ some m' = m ∧ some d' = d := by
        simp only [Prod.mk.injEq] at hscan
        exact ⟨hscan.1, hscan.2.1, hscan.2.2⟩
      rcases hmiss with hh | hh | hh <;> subst hh <;> simp_all
    · rfl

theorem tokYear_gt (t : List Char) (v : Nat) (h : tokYear t = some v) : 5000 < v := by
  unfold tokYear at h
  split at h
  · split at h
    · injection h with h'
      omega
    · exact absurd h (by simp)
  · exact absurd h (by simp)

theorem tokDay_bounds (t : List Char) (v : Nat) (h : tokDay t = some v) :
    1 ≤ v ∧ v ≤ 30 := by
  unfold tokDay at h
  split at h
  · split at h
    · exact absurd h (by simp)
    · split at h
      · injection h with h'
        omega
      · exact absurd h (by simp)
  · exact absurd h (by simp)

theorem tokMonth_mem (t : List Char) (mv : String) (h : tokMonth t = some mv) :
    mv ∈ hebMonthNames := by
  unfold tokMonth at h
  split at h
  · exact absurd h (by simp)
  · unfold lookupHebMonth at h
    rcases hf : HEBREW_MONTHS.find? (fun p => p.1.data == t) with _ | p
    · rw [hf] at h
      exact absurd h (by simp)
    · rw [hf] at h
      have hps : p.2 = mv := by simpa using h
      have hp : p ∈ HEBREW_MONTHS := List.mem_of_find?_eq_some hf
      unfold hebMonthNames
      rw [← hps]
      exact List.mem_map_of_mem Prod.snd hp

/-- C5: the Hebrew parser is token-order insensitive on the three spec
inputs, each yielding `{year 5784, month Kislev, day 25}`. -/
theorem claim5_token_order :
    parseHebrewDate "5784 Kislev 25" = some ⟨5784, "Kislev", 25⟩ ∧
    parseHebrewDate "25 Kislev 5784" = some ⟨5784, "Kislev", 25⟩ ∧
    parseHebrewDate "Kislev 25, 5784" = some ⟨5784, "Kislev", 25⟩ := by decide

/-- C9: fewer than three tokens after cleaning and splitting means the
Hebrew parser reports no-match. -/
theorem claim9_few_tokens (s : String) (h : (hebTokens s).length < 3) :
    parseHebrewDate s = none := by
  unfold parseHebrewDate
  rw [if_pos h]

theorem claim9_few_tokens_witness :
    (hebTokens "Kislev 25").length < 3 ∧ parseHebrewDate "Kislev 25" = none :=
  ⟨by decide, claim9_few_tokens "Kislev 25" (by decide)⟩

/-- C6: whenever the token list decomposes around a qualifying token `t`
with no qualifying token after it, the corresponding field of a returned
record carries `t`'s value: the last qualifying token wins, with no
conflict detection. -/
theorem claim6_last_token_wins (s : String) (r : HebrewDate)
    (hr : parseHebrewDate s = some r) :
    (∀ l1 t l2 v, hebTokens s = l1 ++ t :: l2 → tokYear t = some v →
       (∀ u ∈ l2, tokYear u = none) → r.year = v) ∧
    (∀ l1 t l2 mv, hebTokens s = l1 ++ t :: l2 → tokMonth t = some mv →
       (∀ u ∈ l2, tokMonth u = none) → r.month = mv) ∧
    (∀ l1 t l2 v, hebTokens s = l1 ++ t :: l2 → tokDay t = some v →
       (∀ u ∈ l2, tokDay u = none) → r.day = v) := by
  obtain ⟨-, hscan⟩ := parseHebrew_some_elim s r hr
  rw [scanTokens_eq] at hscan
  simp only [Prod.mk.injEq] at hscan
  obtain ⟨hY, hM, hD⟩ := hscan
  refine ⟨?_, ?_, ?_⟩
  · intro l1 t l2 v hdec hft h2
    rw [hdec, lastSome_last_qualifying tokYear l1 t l2 v none hft h2] at hY
    injection hY with h'
    exact h'.symm
  · intro l1 t l2 mv hdec hft h2
    rw [hdec, lastSome_last_qualifying tokMonth l1 t l2 mv none hft h2] at hM
    injection hM with h'
    exact h'.symm
  · intro l1 t l2 v hdec hft h2
    rw [hdec, lastSome_last_qualifying tokDay l1 t l2 v none hft h2] at hD
    injection hD with h'
    exact h'.symm

theorem claim6_last_token_wins_witness :
    parseHebrewDate "10 20 kislev nisan 5784 5790" = some ⟨5790, "Nisan", 20⟩ ∧
    (⟨5790, "Nisan", 20⟩ : HebrewDate).year = 5790 ∧
    (⟨5790, "Nisan", 20⟩ : HebrewDate).month = "Nisan" ∧
    (⟨5790, "Nisan", 20⟩ : HebrewDate).day = 20 := by
  have hp : parseHebrewDate "10 20 kislev nisan 5784 5790" = some ⟨5790, "Nisan", 20⟩ := by
    decide
  have h := claim6_last_token_wins "10 20 kislev nisan 5784 5790" ⟨5790, "Nisan", 20⟩ hp
  refine ⟨hp, ?_, ?_, ?_⟩
  · exact h.1 [['1', '0'], ['2', '0'], ['k', 'i', 's', 'l', 'e', 'v'],
      ['n', 'i', 's', 'a', 'n'], ['5', '7', '8', '4']] ['5', '7', '9', '0'] [] 5790
      (by decide) (by decide) (by simp)
  · exact h.2.1 [['1', '0'], ['2', '0'], ['k', 'i', 's', 'l', 'e', 'v']]
      ['n', 'i', 's', 'a', 'n'] [['5', '7', '8', '4'], ['5', '7', '9', '0']] "Nisan"
      (by decide) (by decide) (by decide)
  · exact h.2.2 [['1', '0']] ['2', '0']
      [['k', 'i', 's', 'l', 'e', 'v'], ['n', 'i', 's', 'a', 'n'],
       ['5', '7', '8', '4'], ['5', '7', '9', '0']] 20
      (by decide) (by decide) (by decide)

/-- C7: every record the Hebrew parser returns has a year above 5000, a
month among the 14 canonical display names and a day in `[1, 30]`; and if
any slot was not identified the parser returns no-match, never a partial
record. -/
theorem claim7_invariant (s : String) :
    (∀ r, parseHebrewDate s = some r →
       5000 < r.year ∧ r.month ∈ hebMonthNames ∧ 1 ≤ r.day ∧ r.day ≤ 30) ∧
    (∀ y m d, scanTokens (hebTokens s) none none none = (y, m, d) →
       y = none ∨ m = none ∨ d = none → parseHebrewDate s = none) := by
  constructor
  · intro r hr
    obtain ⟨-, hscan⟩ := parseHebrew_some_elim s r hr
    rw [scanTokens_eq] at hscan
    simp only [Prod.mk.injEq] at hscan
    obtain ⟨hY, hM, hD⟩ := hscan
    have hy : 5000 < r.year := by
      rcases lastSome_some_mem _ _ _ _ hY with ⟨u, -, hu⟩ | hinit
      · exact tokYear_gt u r.year hu
      · exact absurd hinit (by simp)
    have hm : r.month ∈ hebMonthNames := by
      rcases lastSome_some_mem _ _ _ _ hM with ⟨u, -, hu⟩ | hinit
      · exact tokMonth_mem u r.month hu
      · exact absurd hinit (by simp)
    have hdv : 1 ≤ r.day ∧ r.day ≤ 30 := by
      rcases lastSome_some_mem _ _ _ _ hD with ⟨u, -, hu⟩ | hinit
      · exact tokDay_bounds u r.day hu
      · exact absurd hinit (by simp)
    exact ⟨hy, hm, hdv.1, hdv.2⟩
  · intro y m d hscan hmiss
    exact parseHebrew_none_of_slot s y m d hscan hmiss

theorem claim7_invariant_witness :
    (5000 < (⟨5784, "Kislev", 25⟩ : HebrewDate).year ∧
      (⟨5784, "Kislev", 25⟩ : HebrewDate).month ∈ hebMonthNames ∧
      1 ≤ (⟨5784, "Kislev", 25⟩ : HebrewDate).day ∧
      (⟨5784, "Kislev", 25⟩ : HebrewDate).day ≤ 30) ∧
    parseHebrewDate "Kislev Kislev Kislev" = none :=
  ⟨(claim7_invariant "25 Kislev 5784").1 ⟨5784, "Kislev", 25⟩ (by decide),
   (claim7_invariant "Kislev Kislev Kislev").2 none (some "Kislev") none
     (by decide) (Or.inl rfl)⟩

theorem convertH2GBody_missing (data : List (String × Json))
    (h : (hasField data "gy" && hasField data "gm" && hasField data "gd") = false) :
    convertH2GBody (.ok data) = .ok none := by
  simp only [convertH2GBody]
  rcases hgy : lookupField data "gy" with _ | gy
  · rfl
  · rcases hgm : lookupField data "gm" with _ | gm
    · rfl
    · rcases hgd : lookupField data "gd" with _ | gd
      · rfl
      · exact absurd h (by simp [hasField, hgy, hgm, hgd])

theorem convertG2HBody_missing (data : List (String × Json))
    (h : (hasField data "hy" && hasField data "hm" && hasField data "hd") = false) :
    convertG2HBody (.ok data) = .ok none := by
  simp only [convertG2HBody]
  rcases hhy : lookupField data "hy" with _ | hy
  · rfl
  · rcases hhm : lookupField data "hm" with _ | hm
    · rfl
    · rcases hhd : lookupField data "hd" with _ | hd
      · rfl
      · exact absurd h (by simp [hasField, hhy, hhm, hhd])

/-- C8: on any structured input and any service behaviour in the failure
taxonomy (network error, timeout, non-2xx, malformed JSON, or expected
result fields missing), both gateway functions return `none`; and whenever
the embedded body raises (an `Except.error`), the caught result is also
`none`, so no exception ever reaches the caller. -/
theorem claim8_gateway_degrades (hd : HebrewDate) (g : GregorianDate)
    (sv1 sv2 : String → FetchOutcome)
    (h1 : isConvFailureG (sv1 (buildH2GUrl hd)) = true)
    (h2 : isConvFailureH (sv2 (buildG2HUrl g)) = true) :
    convertHebrewToGregorian hd sv1 = none ∧
    convertGregorianToHebrew g sv2 = none ∧
    (∀ e, convertH2GBody (sv1 (buildH2GUrl hd)) = Except.error e →
       convertHebrewToGregorian hd sv1 = none) ∧
    (∀ e, convertG2HBody (sv2 (buildG2HUrl g)) = Except.error e →
       convertGregorianToHebrew g sv2 = none) := by
  refine ⟨?_, ?_, ?_, ?_⟩
  · unfold convertHebrewToGregorian
    rcases hout : sv1 (buildH2GUrl hd) with _ | _ | data
    · rfl
    · rfl
    · rw [hout] at h1
      have hmiss : (hasField data "gy" && hasField data "gm" && hasField data "gd") = false := by
        rcases hx : (hasField data "gy" && hasField data "gm" && hasField data "gd") with _ | _
        · rfl
        · simp [isConvFailureG, hx] at h1
      rw [convertH2GBody_missing data hmiss]
  · unfold convertGregorianToHebrew
    rcases hout : sv2 (buildG2HUrl g) with _ | _ | data
    · rfl
    · rfl
    · rw [hout] at h2
      have hmiss : (hasField data "hy" && hasField data "hm" && hasField data "hd") = false := by
        rcases hx : (hasField data "hy" && hasField data "hm" && hasField data "hd") with _ | _
        · rfl
        · simp [isConvFailureH, hx] at h2
      rw [convertG2HBody_missing data hmiss]
  · intro e he
    unfold convertHebrewToGregorian
    rw [he]
  · intro e he
    unfold convertGregorianToHebrew
    rw [he]

theorem claim8_gateway_degrades_witness :
    convertHebrewToGregorian ⟨5784, "Kislev", 25⟩ (fun _ => .netError) = none ∧
    convertGregorianToHebrew ⟨2023, 12, 8⟩ (fun _ => .badJson) = none :=
  ⟨(claim8_gateway_degrades ⟨5784, "Kislev", 25⟩ ⟨2023, 12, 8⟩
      (fun _ => .netError) (fun _ => .badJson) rfl rfl).1,
   (claim8_gateway_degrades ⟨5784, "Kislev", 25⟩ ⟨2023, 12, 8⟩
      (fun _ => .netError) (fun _ => .badJson) rfl rfl).2.1⟩

theorem digitVal_le (c : Char) (h : isDig c = true) : digitVal c ≤ 9 := by
  unfold isDig at h
  rw [decide_eq_true_eq] at h
  unfold digitVal
  omega

theorem natOfDigits_one (a : Char) : natOfDigits [a] = digitVal a := by
  simp [natOfDigits]

theorem natOfDigits_two (a b : Char) :
    natOfDigits [a, b] = 10 * digitVal a + digitVal b := by
  simp [natOfDigits]
  omega

theorem natOfDigits_one_le (a : Char) (h : isDig a = true) : natOfDigits [a] ≤ 9 := by
  rw [natOfDigits_one]
  exact digitVal_le a h

theorem natOfDigits_two_le (a b : Char) (ha : isDig a = true) (hb : isDig b = true) :
    natOfDigits [a, b] ≤ 99 := by
  rw [natOfDigits_two]
  have := digitVal_le a ha
  have := digitVal_le b hb
  omega

/-- Any value matched by the `(\d{1,2})sep` fragment is at most two digits. -/
theorem grabThen_le (sep : Char) (cs : List Char) (n : Nat) (rest : List Char)
    (h : grabThen sep cs = some (n, rest)) : n ≤ 99 := by
  unfold grabThen at h
  split at h
  · rename_i c1 c2 c3 rest'
    split at h
    · rename_i h1
      split at h
      · rename_i h2
        split at h
        · simp only [Option.some.injEq, Prod.mk.injEq] at h
          rw [← h.1]
          exact natOfDigits_two_le c1 c2 h1 h2
        · exact absurd h (by simp)
      · split at h
        · simp only [Option.some.injEq, Prod.mk.injEq] at h
          rw [← h.1]
          exact Nat.le_trans (natOfDigits_one_le c1 h1) (by omega)
        · exact absurd h (by simp)
    · exact absurd h (by simp)
  · rename_i c1 c2
    split at h
    · rename_i hcond
      rw [Bool.and_eq_true] at hcond
      simp only [Option.some.injEq, Prod.mk.injEq] at h
      rw [← h.1]
      exact Nat.le_trans (natOfDigits_one_le c1 hcond.1) (by omega)
    · exact absurd h (by simp)
  · exact absurd h (by simp)

/-- The month group of a successful ISO match is at most two digits. -/
theorem matchISO_month_le (cs : List Char) (y m d : Nat)
    (h : matchISO cs = some (y, m, d)) : m ≤ 99 := by
  unfold matchISO at h
  split at h
  · exact absurd h (by simp)
  · rename_i yv yr heq4
    split at h
    · exact absurd h (by simp)
    · rename_i mv mr heqm
      split at h
      · exact absurd h (by simp)
      · simp only [Option.some.injEq, Prod.mk.injEq] at h
        obtain ⟨-, hm2, -⟩ := h
        rw [← hm2]
        exact grabThen_le '-' yr mv mr heqm

/-- Both leading groups of a successful slash match are at most two digits. -/
theorem matchSlash_le (cs : List Char) (a b y : Nat)
    (h : matchSlash cs = some (a, b, y)) : a ≤ 99 ∧ b ≤ 99 := by
  unfold matchSlash at h
  split at h
  · exact absurd h (by simp)
  · rename_i av ar heqa
    split at h
    · exact absurd h (by simp)
    · rename_i bv br heqb
      split at h
      · exact absurd h (by simp)
      · simp only [Option.some.injEq, Prod.mk.injEq] at h
        obtain ⟨ha2, hb2, -⟩ := h
        constructor
        · rw [← ha2]
          exact grabThen_le '/' cs av ar heqa
        · rw [← hb2]
          exact grabThen_le '/' ar bv br heqb

/-- Any record the natural-language loop returns takes its month number from
the dict it walks. -/
theorem tryMonths_month_mem (cs : List Char) (nums : List Nat) :
    ∀ (L : List (String × Nat)) (r : GregorianDate),
      tryMonths cs nums L = some r → ∃ p ∈ L, r.month = p.2 := by
  intro L
  induction L with
  | nil => intro r h; exact absurd h (by simp [tryMonths])
  | cons hd tl ih =>
    obtain ⟨nm, mnum⟩ := hd
    intro r h
    rw [tryMonths] at h
    split at h
    · split at h
      · simp only [Option.some.injEq] at h
        exact ⟨(nm, mnum), by simp, by rw [← h]⟩
      · obtain ⟨p, hp, hm⟩ := ih r h
        exact ⟨p, by simp [hp], hm⟩
    · obtain ⟨p, hp, hm⟩ := ih r h
      exact ⟨p, by simp [hp], hm⟩

/-- With fewer than two numeric runs the natural-language loop never builds
a record, whichever month names match. -/
theorem tryMonths_short (cs : List Char) (nums : List Nat) (hn : nums.length < 2) :
    ∀ L : List (String × Nat), tryMonths cs nums L = none := by
  intro L
  induction L with
  | nil => rfl
  | cons hd tl ih =>
    obtain ⟨nm, mnum⟩ := hd
    rw [tryMonths]
    split
    · rw [if_neg (by omega)]
      exact ih
    · exact ih

/-- With at least two numeric runs and some matching month name, the
natural-language loop returns the first-run/last-run record. -/
theorem tryMonths_found (cs : List Char) (nums : List Nat) (hn : 2 ≤ nums.length) :
    ∀ L : List (String × Nat),
      (∃ p ∈ L, containsSub p.1.data (lowerL cs) = true) →
      ∃ mn, tryMonths cs nums L = some ⟨fixYear (nums.getLastD 0), mn, nums.headD 0⟩ := by
  intro L
  induction L with
  | nil => rintro ⟨p, hp, -⟩; exact absurd hp (by simp)
  | cons hd tl ih =>
    obtain ⟨nm, mnum⟩ := hd
    rintro ⟨p, hp, hc⟩
    rw [tryMonths]
    by_cases hhd : containsSub nm.data (lowerL cs) = true
    · rw [if_pos hhd, if_pos hn]
      exact ⟨mnum, rfl⟩
    · rw [if_neg hhd]
      rcases List.mem_cons.mp hp with rfl | hptl
      · exact absurd hc hhd
      · exact ih ⟨p, hptl, hc⟩

/-- C1 counterexample: the parser performs no range validation, so the ISO
form accepts a two-digit month and day far outside the claimed 1–12 and
1–31 ranges. -/
theorem claim1_counterexample :
    parseGregorianDate "2023-99-99" = some ⟨2023, 99, 99⟩ ∧
    ¬((⟨2023, 99, 99⟩ : GregorianDate).month ≤ 12) ∧
    ¬((⟨2023, 99, 99⟩ : GregorianDate).day ≤ 31) := by decide

/-- C1 (amended): every record the Gregorian parser returns has a month of
at most two digits (`≤ 99`); the claimed bounds month `1–12` / day `1–31`
are not enforced by the numeric forms. -/
theorem claim1_month_at_most_two_digits (s : String) (r : GregorianDate)
    (h : parseGregorianDate s = some r) : r.month ≤ 99 := by
  unfold parseGregorianDate parseGregorianDateL at h
  split at h
  · rename_i y m d heq
    obtain rfl : r = ⟨y, m, d⟩ := by
      injection h with h'
      exact h'.symm
    exact matchISO_month_le s.data y m d heq
  · split at h
    · rename_i hiso a b y heq
      have hb := (matchSlash_le s.data a b y heq).2
      have ha := (matchSlash_le s.data a b y heq).1
      split at h
      · obtain rfl : r = ⟨y, b, a⟩ := by
          injection h with h'
          exact h'.symm
        exact hb
      · obtain rfl : r = ⟨y, a, b⟩ := by
          injection h with h'
          exact h'.symm
        exact ha
    · obtain ⟨p, hp, hm⟩ := tryMonths_month_mem s.data (numList s.data) monthsList r h
      have hle : ∀ q ∈ monthsList, q.2 ≤ 12 := by decide
      have := hle p hp
      omega

theorem claim1_month_at_most_two_digits_witness :
    parseGregorianDate "2023-12-08" = some ⟨2023, 12, 8⟩ ∧
    (⟨2023, 12, 8⟩ : GregorianDate).month ≤ 99 :=
  ⟨by decide, claim1_month_at_most_two_digits "2023-12-08" ⟨2023, 12, 8⟩ (by decide)⟩

/-- C10: the natural-language branch needs at least two numeric runs: with
fewer, it yields no record no matter which month names occur, and in
particular `December 8` parses to nothing. -/
theorem claim10_two_numbers_required (s : String)
    (h : (numList s.data).length < 2) :
    tryMonths s.data (numList s.data) monthsList = none ∧
    parseGregorianDate "December 8" = none :=
  ⟨tryMonths_short s.data (numList s.data) h monthsList, by decide⟩

theorem claim10_two_numbers_required_witness :
    tryMonths "December 8".data (numList "December 8".data) monthsList = none ∧
    parseGregorianDate "December 8" = none :=
  claim10_two_numbers_required "December 8" (by decide)

/-- C4 counterexample: `December 8` matches neither numeric form and
contains the month name `december`, yet the parser returns no record at
all — against the claim's promised day-8 / year-2008 record — because only
one numeric run is present. -/
theorem claim4_counterexample :
    matchISO "December 8".data = none ∧
    matchSlash "December 8".data = none ∧
    ("december", 12) ∈ monthsList ∧
    containsSub "december".data (lowerL "December 8".data) = true ∧
    parseGregorianDate "December 8" = none := by decide

/-- C4 (amended): for inputs matching neither numeric form, containing an
English month name, and containing at least two numeric runs, the parser
returns a record whose day is the first numeric run and whose year is the
last numeric run, plus 2000 when below 100; `December 8, 23` gives 2023. -/
theorem claim4_nl_first_last_runs (s : String)
    (h1 : matchISO s.data = none) (h2 : matchSlash s.data = none)
    (h3 : ∃ p ∈ monthsList, containsSub p.1.data (lowerL s.data) = true)
    (h4 : 2 ≤ (numList s.data).length) :
    (parseGregorianDate s).map (fun r => r.day) = some ((numList s.data).headD 0) ∧
    (parseGregorianDate s).map (fun r => r.year) =
      some (fixYear ((numList s.data).getLastD 0)) ∧
    parseGregorianDate "December 8, 23" = some ⟨2023, 12, 8⟩ := by
  obtain ⟨mn, hmn⟩ := tryMonths_found s.data (numList s.data) h4 monthsList h3
  refine ⟨?_, ?_, by decide⟩ <;>
    · unfold parseGregorianDate parseGregorianDateL
      rw [h1, h2, hmn]
      rfl

theorem claim4_nl_first_last_runs_witness :
    (parseGregorianDate "December 8, 23").map (fun r => r.day) =
      some ((numList "December 8, 23".data).headD 0) ∧
    (parseGregorianDate "December 8, 23").map (fun r => r.year) =
      some (fixYear ((numList "December 8, 23".data).getLastD 0)) :=
  ⟨(claim4_nl_first_last_runs "December 8, 23" (by decide) (by decide)
      ⟨("december", 12), by decide, by decide⟩ (by decide)).1,
   (claim4_nl_first_last_runs "December 8, 23" (by decide) (by decide)
      ⟨("december", 12), by decide, by decide⟩ (by decide)).2.1⟩

theorem isDig_slash : isDig '/' = false := by decide

theorem isDig_dash : isDig '-' = false := by decide

theorem list_len4 {α : Type} (l : List α) (h : l.length = 4) :
    ∃ a b c d, l = [a, b, c, d] := by
  rcases l with _ | ⟨a, l⟩
  · simp at h
  rcases l with _ | ⟨b, l⟩
  · simp at h
  rcases l with _ | ⟨c, l⟩
  · simp at h
  rcases l with _ | ⟨d, l⟩
  · simp at h
  rcases l with _ | ⟨e, l⟩
  · exact ⟨a, b, c, d, rfl⟩
  · simp only [List.length_cons] at h
    omega

theorem list_len12 {α : Type} (l : List α) (h1 : 1 ≤ l.length) (h2 : l.length ≤ 2) :
    (∃ a, l = [a]) ∨ (∃ a b, l = [a, b]) := by
  rcases l with _ | ⟨a, l⟩
  · simp at h1
  rcases l with _ | ⟨b, l⟩
  · exact Or.inl ⟨a, rfl⟩
  rcases l with _ | ⟨c, l⟩
  · exact Or.inr ⟨a, b, rfl⟩
  · simp only [List.length_cons] at h2
    omega

/-- C2: on any input whose leading characters form the slash shape (one or
two digits, slash, one or two digits, slash, four digits), the parser swaps
the first two numbers into day/month when the first exceeds 12 and reads
them as month/day otherwise; the two spec examples follow. -/
theorem claim2_slash_disambiguation
    (a b y4 rest : List Char)
    (ha1 : 1 ≤ a.length) (ha2 : a.length ≤ 2) (had : a.all isDig = true)
    (hb1 : 1 ≤ b.length) (hb2 : b.length ≤ 2) (hbd : b.all isDig = true)
    (hy4 : y4.length = 4) (hyd : y4.all isDig = true) :
    parseGregorianDateL (a ++ '/' :: (b ++ '/' :: (y4 ++ rest))) =
      (if natOfDigits a > 12
       then some ⟨natOfDigits y4, natOfDigits b, natOfDigits a⟩
       else some ⟨natOfDigits y4, natOfDigits a, natOfDigits b⟩) ∧
    parseGregorianDate "25/12/2023" = some ⟨2023, 12, 25⟩ ∧
    parseGregorianDate "5/6/2023" = some ⟨2023, 5, 6⟩ := by
  refine ⟨?_, by decide, by decide⟩
  obtain ⟨e1, e2, e3, e4, rfl⟩ := list_len4 y4 hy4
  simp only [List.all_cons, List.all_nil, Bool.and_eq_true, Bool.and_true] at hyd
  obtain ⟨hE1, hE2, hE3, hE4⟩ := hyd
  rcases list_len12 a ha1 ha2 with ⟨p1, rfl⟩ | ⟨p1, p2, rfl⟩ <;>
    rcases list_len12 b hb1 hb2 with ⟨q1, rfl⟩ | ⟨q1, q2, rfl⟩ <;>
    simp only [List.all_cons, List.all_nil, Bool.and_eq_true, Bool.and_true] at had hbd
  · simp [parseGregorianDateL, matchISO, matchSlash, grab4Then, grabThen, grab4,
      had, hbd, hE1, hE2, hE3, hE4, isDig_slash]
  · obtain ⟨hQ1, hQ2⟩ := hbd
    simp [parseGregorianDateL, matchISO, matchSlash, grab4Then, grabThen, grab4,
      had, hQ1, hQ2, hE1, hE2, hE3, hE4, isDig_slash]
  · obtain ⟨hP1, hP2⟩ := had
    simp [parseGregorianDateL, matchISO, matchSlash, grab4Then, grabThen, grab4,
      hP1, hP2, hbd, hE1, hE2, hE3, hE4, isDig_slash]
  · obtain ⟨hP1, hP2⟩ := had
    obtain ⟨hQ1, hQ2⟩ := hbd
    simp [parseGregorianDateL, matchISO, matchSlash, grab4Then, grabThen, grab4,
      hP1, hP2, hQ1, hQ2, hE1, hE2, hE3, hE4, isDig_slash]

theorem claim2_slash_disambiguation_witness :
    parseGregorianDateL
        (['2', '5'] ++ '/' :: (['1', '2'] ++ '/' :: (['2', '0', '2', '3'] ++ []))) =
      (if natOfDigits ['2', '5'] > 12
       then some ⟨natOfDigits ['2', '0', '2', '3'], natOfDigits ['1', '2'],
         natOfDigits ['2', '5']⟩
       else some ⟨natOfDigits ['2', '0', '2', '3'], natOfDigits ['2', '5'],
         natOfDigits ['1', '2']⟩) :=
  (claim2_slash_disambiguation ['2', '5'] ['1', '2'] ['2', '0', '2', '3'] []
    (by decide) (by decide) (by decide) (by decide) (by decide) (by decide)
    (by decide) (by decide)).1

/-- C3: on any input whose leading characters form the ISO shape (four
digits, dash, one or two digits, dash, one or two digits, with no further
digit following), the parser returns the three numbers exactly as written;
the spec example follows. -/
theorem claim3_iso_exact
    (y m d rest : List Char)
    (hy4 : y.length = 4) (hyd : y.all isDig = true)
    (hm1 : 1 ≤ m.length) (hm2 : m.length ≤ 2) (hmd : m.all isDig = true)
    (hd1 : 1 ≤ d.length) (hd2 : d.length ≤ 2) (hdd : d.all isDig = true)
    (hrest : ∀ c, c ∈ rest.head? → isDig c = false) :
    parseGregorianDateL (y ++ '-' :: (m ++ '-' :: (d ++ rest))) =
      some ⟨natOfDigits y, natOfDigits m, natOfDigits d⟩ ∧
    parseGregorianDate "2023-12-08" = some ⟨2023, 12, 8⟩ := by
  refine ⟨?_, by decide⟩
  obtain ⟨a1, a2, a3, a4, rfl⟩ := list_len4 y hy4
  simp only [List.all_cons, List.all_nil, Bool.and_eq_true, Bool.and_true] at hyd
  obtain ⟨hA1, hA2, hA3, hA4⟩ := hyd
  rcases list_len12 m hm1 hm2 with ⟨b1, rfl⟩ | ⟨b1, b2, rfl⟩ <;>
    rcases list_len12 d hd1 hd2 with ⟨c1, rfl⟩ | ⟨c1, c2, rfl⟩ <;>
    simp only [List.all_cons, List.all_nil, Bool.and_eq_true, Bool.and_true] at hmd hdd
  · rcases rest with _ | ⟨r0, rs⟩
    · simp [parseGregorianDateL, matchISO, grab4Then, grabThen, grabLast,
        hA1, hA2, hA3, hA4, hmd, hdd, isDig_dash]
    · have hr0 : isDig r0 = false := hrest r0 (by simp)
      simp [parseGregorianDateL, matchISO, grab4Then, grabThen, grabLast,
        hA1, hA2, hA3, hA4, hmd, hdd, hr0, isDig_dash]
  · obtain ⟨hC1, hC2⟩ := hdd
    simp [parseGregorianDateL, matchISO, grab4Then, grabThen, grabLast,
      hA1, hA2, hA3, hA4, hmd, hC1, hC2, isDig_dash]
  · obtain ⟨hB1, hB2⟩ := hmd
    rcases rest with _ | ⟨r0, rs⟩
    · simp [parseGregorianDateL, matchISO, grab4Then, grabThen, grabLast,
        hA1, hA2, hA3, hA4, hB1, hB2, hdd, isDig_dash]
    · have hr0 : isDig r0 = false := hrest r0 (by simp)
      simp [parseGregorianDateL, matchISO, grab4Then, grabThen, grabLast,
        hA1, hA2, hA3, hA4, hB1, hB2, hdd, hr0, isDig_dash]
  · obtain ⟨hB1, hB2⟩ := hmd
    obtain ⟨hC1, hC2⟩ := hdd
    simp [parseGregorianDateL, matchISO, grab4Then, grabThen, grabLast,
      hA1, hA2, hA3, hA4, hB1, hB2, hC1, hC2, isDig_dash]

theorem claim3_iso_exact_witness :
    parseGregorianDateL
        (['2', '0', '2', '3'] ++ '-' :: (['1', '2'] ++ '-' :: (['0', '8'] ++ []))) =
      some ⟨natOfDigits ['2', '0', '2', '3'], natOfDigits ['1', '2'],
        natOfDigits ['0', '8']⟩ :=
  (claim3_iso_exact ['2', '0', '2', '3'] ['1', '2'] ['0', '8'] []
    (by decide) (by decide) (by decide) (by decide) (by decide) (by decide)
    (by decide) (by decide) (by simp)).1

end Hebcal
